import Mathlib

/-!
Verification of the artifact-path transformation and upload-decision core of
the daggerverse CI modules.

The embedding models directories as association lists from relative path
strings to raw byte contents.  Container execution and the external CLIs are
out of scope (per the specification); the decision logic that chooses which
external invocation to make is modelled as the list of command argument
vectors it emits.  Go string primitives used by the source
(strings.SplitN, strings.HasSuffix, strings.TrimSuffix, strings.TrimPrefix)
are translated faithfully over the character lists backing Lean strings.
-/

set_option autoImplicit false

namespace Daggerverse

/-- Raw contents of a file, as a byte sequence. -/
abbrev Bytes := List Nat

/-- A directory snapshot: an association list from relative path to contents.
Keys are kept distinct, mirroring a filesystem directory. -/
abbrev Dir := List (String × Bytes)

/-! ### Go string primitives -/

/-- Split a character list on the slash character.  Mirrors the segment
structure used by Go strings.Split with separator "/". -/
def splitOnSlash : List Char → List (List Char)
  | [] => [[]]
  | c :: rest =>
    if c = '/' then [] :: splitOnSlash rest
    else
      match splitOnSlash rest with
      | [] => [[c]]
      | h :: t => (c :: h) :: t

/-- The slash-separated segments of a path string. -/
def pathSegments (s : String) : List String :=
  (splitOnSlash s.data).map String.mk

/-- Join segments back with slashes; inverse direction of splitting, used to
model the remainder component of Go strings.SplitN. -/
def joinSlash : List String → String
  | [] => ""
  | [s] => s
  | s :: t :: rest => s ++ "/" ++ joinSlash (t :: rest)

/-- Go strings.SplitN(s, "/", 3): at most three parts, the third keeps any
remaining separators. -/
def goSplitN3 (s : String) : List String :=
  match pathSegments s with
  | a :: b :: c :: rest => [a, b, joinSlash (c :: rest)]
  | parts => parts

/-- Go strings.HasSuffix. -/
def goHasSuffix (s suffix : String) : Bool :=
  suffix.data.isSuffixOf s.data

/-- Go strings.TrimSuffix: drops the suffix when present, else returns the
string unchanged. -/
def goTrimSuffix (s suffix : String) : String :=
  if goHasSuffix s suffix then ⟨s.data.take (s.data.length - suffix.data.length)⟩ else s

/-- Test for a leading literal marker; models Go strings.HasPrefix. -/
def goStartsWith (s lead : String) : Bool :=
  lead.data.isPrefixOf s.data

/-- Drop one leading literal marker when present; models Go strings.TrimPrefix. -/
def goTrimLeading (s lead : String) : String :=
  if goStartsWith s lead then ⟨s.data.drop lead.data.length⟩ else s

/-! ### Association-list primitives

These model a filesystem directory write (dagger Directory.WithFile, which
replaces an existing entry at the same path) and a Go map assignment, both of
which are keyed updates with replacement. -/

/-- Look up the value stored under a key. -/
def lookupKey {α : Type} : List (String × α) → String → Option α
  | [], _ => none
  | (k, v) :: rest, key => if k = key then some v else lookupKey rest key

/-- Store a value under a key, replacing any existing entry for that key
(models dagger Directory.WithFile and Go map assignment). -/
def setKey {α : Type} : List (String × α) → String → α → List (String × α)
  | [], key, val => [(key, val)]
  | (k, v) :: rest, key, val =>
    if k = key then (key, val) :: rest else (k, v) :: setKey rest key val

/-- Number of entries stored under a key. -/
def countKey {α : Type} : List (String × α) → String → Nat
  | [], _ => 0
  | (k, _) :: rest, key => (if k = key then 1 else 0) + countKey rest key

/-! ### PathFlattener

Translated from Flatten in the ghrelease module (src/unnamed/part_001,
lines 50 to 85); the identical standalone routine FlattenNameOsArch lives in
the utils module (src/unnamed/part_004, lines 17 to 51). -/

/-- The composite output filename for a depth-3 artifact entry, exactly as
computed in the loop body of Flatten: a trailing ".sha256" stays at the end,
every other filename gets the os and arch appended. -/
def flattenedNewName (os arch filename : String) : String :=
  if goHasSuffix filename ".sha256" then
    goTrimSuffix filename ".sha256" ++ "-" ++ os ++ "-" ++ arch ++ ".sha256"
  else
    filename ++ "-" ++ os ++ "-" ++ arch

/-- The glob pattern used by Flatten: build.Glob(ctx, "*/*/*") returns the
paths with exactly three slash-separated segments, since a glob star does not
cross a separator. -/
def glob3 (build : Dir) : Dir :=
  build.filter fun e => (pathSegments e.1).length == 3

/-- One iteration of the Flatten loop: split the entry path into at most
three parts, skip it unless there are exactly three, otherwise write the
renamed file into the output directory. -/
def flattenStep (dist : Dir) (entry : String × Bytes) : Dir :=
  match goSplitN3 entry.1 with
  | [os, arch, filename] => setKey dist (flattenedNewName os arch filename) entry.2
  | _ => dist

/-- Flatten takes a build artifact directory organized as os/arch/filename
and returns a flat directory with files renamed to filename-os-arch (or
filename-os-arch.sha256 for checksum files).  Translated from
src/unnamed/part_001 lines 50 to 85. -/
def Flatten (build : Dir) : Dir :=
  (glob3 build).foldl flattenStep []

/-- The utils module routine FlattenNameOsArch (src/unnamed/part_004) has
the same body as Flatten, line for line. -/
def FlattenNameOsArch (build : Dir) : Dir :=
  Flatten build

/-! ### MetadataIndexer

Translated from src/bucketupload/main.go, lines 17 to 99. -/

/-- Optional upload headers for a file (src/bucketupload/main.go lines
17 to 28); the Go zero value of each field is the empty string, meaning the
corresponding header is not sent. -/
structure FileMetadata where
  ChecksumSHA256 : String
  ContentType : String
deriving DecidableEq, Repr

/-- A relative file path paired with its upload metadata
(src/bucketupload/main.go lines 30 to 39). -/
structure FilePathMetadata where
  Path : String
  Meta : FileMetadata
deriving DecidableEq, Repr

/-- The index maps cleaned relative file paths to their metadata. -/
abbrev MetadataIndex := List (String × FileMetadata)

/-- The key normalization inside buildMetadataIndex:
strings.TrimPrefix(strings.TrimPrefix(m.Path, "./"), "/"). -/
def normalizeKey (p : String) : String :=
  goTrimLeading (goTrimLeading p "./") "/"

/-- buildMetadataIndex creates a lookup map from a slice of FilePathMetadata,
normalizing paths by stripping leading "./" and "/" markers
(src/bucketupload/main.go lines 92 to 99). -/
def buildMetadataIndex (metadata : List FilePathMetadata) : MetadataIndex :=
  metadata.foldl (fun idx m => setKey idx (normalizeKey m.Path) m.Meta) []

/-! ### ArtifactUploader decision policy

Translated from upload in src/bucketupload/main.go, lines 105 to 188.  The
bucket name, endpoint and prefix are secret or caller supplied values that
only flow into the command strings, so they appear here as parameters; each
emitted element of the decision list is the argument vector of one external
copy invocation. -/

/-- The single bulk sync invocation used when no metadata is supplied. -/
def bulkSyncCmd (endpointURL destination : String) : List String :=
  ["aws", "s3", "sync", ".", destination, "--endpoint-url", endpointURL]

/-- The per-file copy invocation: a plain copy, extended with a content-type
header when the indexed metadata has a non-empty ContentType and with
checksum headers when it has a non-empty ChecksumSHA256. -/
def cpCmd (endpointURL destination : String) (idx : MetadataIndex) (entry : String) : List String :=
  let fileDest := destination ++ "/" ++ entry
  let cmd := ["aws", "s3", "cp", entry, fileDest, "--endpoint-url", endpointURL]
  match lookupKey idx entry with
  | some m =>
    let cmd := if m.ContentType ≠ "" then cmd ++ ["--content-type", m.ContentType] else cmd
    let cmd := if m.ChecksumSHA256 ≠ "" then
      cmd ++ ["--checksum-algorithm", "SHA256", "--checksum-sha256", m.ChecksumSHA256] else cmd
    cmd
  | none => cmd

/-- The sequence of external invocations emitted by upload for a given file
listing and metadata list: one bulk sync when the metadata list is empty,
otherwise one targeted copy per listed file. -/
def uploadDecisions (endpointURL destination : String) (files : List String)
    (metadata : List FilePathMetadata) : List (List String) :=
  if metadata.length = 0 then
    [bulkSyncCmd endpointURL destination]
  else
    files.map (cpCmd endpointURL destination (buildMetadataIndex metadata))

/-! ### UploadLatest ordering

Translated from UploadLatest in src/bucketupload/main.go, lines 224 to 247.
The inner call to upload performs an external transfer whose success depends
on the environment, so it is abstracted as an oracle from the key prefix used
for the attempt to its outcome (artifacts and metadata are fixed for the
whole invocation).  The first component of the result records the prefixes
attempted, in order. -/

/-- The constant "latest" (src/bucketupload/main.go line 14). -/
def latest : String := "latest"

/-- UploadLatest uploads under the version prefix, then, only on success,
under the "latest" prefix; the first failure is wrapped and returned. -/
def UploadLatest (uploadResult : String → Except String Unit) (version : String) :
    List String × Except String Unit :=
  match uploadResult version with
  | Except.error e =>
    ([version], Except.error ("could not upload versioned release artifacts: " ++ e))
  | Except.ok _ =>
    match uploadResult latest with
    | Except.error e =>
      ([version, latest], Except.error ("could not upload latest release artifacts: " ++ e))
    | Except.ok _ => ([version, latest], Except.ok ())

/-! ### Ghrelease builder variant

Translated from src/ghrelease/main.go. -/

/-- An opaque handle to a secret value. -/
structure Secret where
  ref : String
deriving DecidableEq, Repr

/-- The Ghrelease state (src/ghrelease/main.go lines 21 to 46). -/
structure Ghrelease where
  Token : Secret
  Repo : String
  Assets : Dir
  DoFlatten : Bool
  Tag : String
deriving DecidableEq, Repr

/-- New creates a new Ghrelease instance (src/ghrelease/main.go lines 49
to 64); the fields it does not mention get the Go zero values false and "". -/
def Ghrelease.New (token : Secret) (repo : String) (assets : Dir) : Ghrelease :=
  { Token := token, Repo := repo, Assets := assets, DoFlatten := false, Tag := "" }

/-- WithFlatten enables flattening of the assets directory before upload
(src/ghrelease/main.go lines 70 to 73). -/
def Ghrelease.WithFlatten (m : Ghrelease) : Ghrelease :=
  { m with DoFlatten := true }

/-- WithTag stores the release tag for upload (src/ghrelease/main.go lines
76 to 82). -/
def Ghrelease.WithTag (m : Ghrelease) (tag : String) : Ghrelease :=
  { m with Tag := tag }

/-- Upload (src/ghrelease/main.go lines 87 to 125): a missing tag is a
configuration error returned before anything else runs; otherwise the assets
(flattened first when requested) are listed with glob "*" (the depth-1
entries) and the single external gh invocation is assembled, modelled here as
the ok value.  path.Join("/dist", entry) is "/dist/" ++ entry for the
slash-free names a depth-1 glob returns. -/
def Ghrelease.Upload (m : Ghrelease) : Except String (List String) :=
  if m.Tag = "" then Except.error "no tag set: call WithTag before Upload"
  else
    let dist := if m.DoFlatten then FlattenNameOsArch m.Assets else m.Assets
    let entries := (dist.filter fun e => (pathSegments e.1).length == 1).map Prod.fst
    Except.ok (["gh", "release", "upload", m.Tag, "--repo", m.Repo, "--clobber"]
      ++ entries.map (fun entry => "/dist/" ++ entry))

/-! ### Specification-side definition for the key normalization

Written from the words of the specification (strip one leading "./", then
strip one leading "/"), to be compared with the code-side normalizeKey. -/

/-- Strip one leading "./" when the first two characters are exactly that. -/
def stripOnceDotSlash (d : List Char) : List Char :=
  if d.take 2 = ['.', '/'] then d.drop 2 else d

/-- Strip one leading "/" when the first character is exactly that. -/
def stripOnceSlash (d : List Char) : List Char :=
  if d.take 1 = ['/'] then d.drop 1 else d

/-- Modelled from the spec: normalize a path to a PathKey by stripping one
leading "./", then one leading "/". -/
def specNormalizeKey (p : String) : String :=
  ⟨stripOnceSlash (stripOnceDotSlash p.data)⟩

/-- A keyed fold step: write the derived key and value of an input element
when it produces one, skip the element otherwise.  Both the Flatten loop and
the buildMetadataIndex loop are instances. -/
def applyEntry {α β : Type} (g : β → Option (String × α))
    (dist : List (String × α)) (e : β) : List (String × α) :=
  match g e with
  | some kv => setKey dist kv.1 kv.2
  | none => dist

/-- The key and value a Flatten loop iteration writes, when it writes one. -/
def flatKV (entry : String × Bytes) : Option (String × Bytes) :=
  match goSplitN3 entry.1 with
  | [os, arch, filename] => some (flattenedNewName os arch filename, entry.2)
  | _ => none

/-- The key and value a buildMetadataIndex loop iteration writes. -/
def mdKV (m : FilePathMetadata) : Option (String × FileMetadata) :=
  some (normalizeKey m.Path, m.Meta)

/-! ### Lemmas about the association-list primitives -/

theorem lookupKey_setKey_self {α : Type} (l : List (String × α)) (k : String) (v : α) :
    lookupKey (setKey l k v) k = some v := by
  induction l with
  | nil => simp [setKey, lookupKey]
  | cons e rest ih =>
    obtain ⟨k₀, v₀⟩ := e
    by_cases h : k₀ = k <;> simp [setKey, lookupKey, h, ih]

theorem lookupKey_setKey_ne {α : Type} (l : List (String × α)) (k key : String) (v : α)
    (h : k ≠ key) : lookupKey (setKey l k v) key = lookupKey l key := by
  induction l with
  | nil => simp [setKey, lookupKey, h]
  | cons e rest ih =>
    obtain ⟨k₀, v₀⟩ := e
    by_cases h₀ : k₀ = k
    · subst h₀; simp [setKey, lookupKey, h, ih]
    · simp [setKey, lookupKey, h₀, ih]

theorem setKey_length_le {α : Type} (l : List (String × α)) (k : String) (v : α) :
    (setKey l k v).length ≤ l.length + 1 := by
  induction l with
  | nil => simp [setKey]
  | cons e rest ih =>
    obtain ⟨k₀, v₀⟩ := e
    by_cases h : k₀ = k
    · simp [setKey, h]
    · simp [setKey, h]
      omega

theorem mem_setKey {α : Type} (l : List (String × α)) (k : String) (v : α)
    (q : String × α) (h : q ∈ setKey l k v) : q = (k, v) ∨ q ∈ l := by
  induction l with
  | nil => simpa [setKey] using h
  | cons e rest ih =>
    obtain ⟨k₀, v₀⟩ := e
    by_cases h₀ : k₀ = k
    · simp only [setKey, h₀, if_pos rfl] at h
      rcases List.mem_cons.mp h with h₁ | h₁
      · exact Or.inl h₁
      · exact Or.inr (List.mem_cons_of_mem _ h₁)
    · simp only [setKey, h₀, if_neg h₀] at h
      rcases List.mem_cons.mp h with h₁ | h₁
      · exact Or.inr (h₁ ▸ List.mem_cons_self _ _)
      · rcases ih h₁ with h₂ | h₂
        · exact Or.inl h₂
        · exact Or.inr (List.mem_cons_of_mem _ h₂)

theorem countKey_setKey_ne {α : Type} (l : List (String × α)) (k key : String) (v : α)
    (h : k ≠ key) : countKey (setKey l k v) key = countKey l key := by
  induction l with
  | nil => simp [setKey, countKey, h]
  | cons e rest ih =>
    obtain ⟨k₀, v₀⟩ := e
    by_cases h₀ : k₀ = k
    · subst h₀; simp [setKey, countKey, h, ih]
    · simp [setKey, countKey, h₀, ih]

theorem countKey_setKey_self {α : Type} (l : List (String × α)) (k : String) (v : α)
    (h : countKey l k ≤ 1) : countKey (setKey l k v) k = 1 := by
  induction l with
  | nil => simp [setKey, countKey]
  | cons e rest ih =>
    obtain ⟨k₀, v₀⟩ := e
    by_cases h₀ : k₀ = k
    · subst h₀
      simp [countKey] at h
      have hrest : countKey rest k₀ = 0 := by omega
      simp [setKey, countKey, hrest]
    · simp only [countKey, if_neg h₀] at h
      have := ih (by omega)
      simp [setKey, countKey, h₀, this]

theorem countKey_setKey_le_one {α : Type} (l : List (String × α)) (k : String) (v : α)
    (h : ∀ key, countKey l key ≤ 1) (key : String) :
    countKey (setKey l k v) key ≤ 1 := by
  by_cases hk : k = key
  · subst hk; exact le_of_eq (countKey_setKey_self l k v (h k))
  · rw [countKey_setKey_ne l k key v hk]; exact h key

theorem lookupKey_some_countKey_pos {α : Type} (l : List (String × α)) (key : String)
    (v : α) (h : lookupKey l key = some v) : 1 ≤ countKey l key := by
  induction l with
  | nil => simp [lookupKey] at h
  | cons e rest ih =>
    obtain ⟨k₀, v₀⟩ := e
    by_cases h₀ : k₀ = key
    · simp [countKey, h₀]
    · simp only [lookupKey, if_neg h₀] at h
      have := ih h
      simp [countKey, h₀]
      omega

/-! ### Lemmas about keyed folds -/

theorem foldl_applyEntry_untouched {α β : Type} (g : β → Option (String × α))
    (l : List β) (dist : List (String × α)) (nm : String)
    (h : ∀ e ∈ l, ∀ kv, g e = some kv → kv.1 ≠ nm) :
    lookupKey (l.foldl (applyEntry g) dist) nm = lookupKey dist nm := by
  induction l generalizing dist with
  | nil => rfl
  | cons e t ih =>
    rw [List.foldl_cons, ih _ (fun x hx kv hkv => h x (List.mem_cons_of_mem _ hx) kv hkv)]
    unfold applyEntry
    cases hg : g e with
    | none => rfl
    | some kv =>
      exact lookupKey_setKey_ne dist kv.1 nm kv.2 (h e (List.mem_cons_self _ _) kv hg)

theorem foldl_applyEntry_last_write {α β : Type} (g : β → Option (String × α))
    (pre post : List β) (x : β) (dist : List (String × α)) (nm : String) (v : α)
    (hx : g x = some (nm, v))
    (hpost : ∀ e ∈ post, ∀ kv, g e = some kv → kv.1 ≠ nm) :
    lookupKey ((pre ++ x :: post).foldl (applyEntry g) dist) nm = some v := by
  rw [List.foldl_append, List.foldl_cons,
    foldl_applyEntry_untouched g post _ nm hpost]
  unfold applyEntry
  rw [hx]
  exact lookupKey_setKey_self _ nm v

theorem foldl_applyEntry_length {α β : Type} (g : β → Option (String × α))
    (l : List β) (dist : List (String × α)) :
    (l.foldl (applyEntry g) dist).length ≤ dist.length + l.length := by
  induction l generalizing dist with
  | nil => simp
  | cons e t ih =>
    rw [List.foldl_cons]
    have hstep : (applyEntry g dist e).length ≤ dist.length + 1 := by
      unfold applyEntry
      cases g e with
      | none => exact Nat.le_succ _
      | some kv => exact setKey_length_le dist kv.1 kv.2
    have := ih (applyEntry g dist e)
    simp only [List.length_cons]
    omega

theorem foldl_applyEntry_countKey_le_one {α β : Type} (g : β → Option (String × α))
    (l : List β) (dist : List (String × α))
    (h : ∀ key, countKey dist key ≤ 1) (key : String) :
    countKey (l.foldl (applyEntry g) dist) key ≤ 1 := by
  induction l generalizing dist with
  | nil => exact h key
  | cons e t ih =>
    rw [List.foldl_cons]
    refine ih (applyEntry g dist e) ?_
    intro k
    unfold applyEntry
    cases g e with
    | none => exact h k
    | some kv => exact countKey_setKey_le_one dist kv.1 kv.2 h k

theorem mem_foldl_applyEntry {α β : Type} (g : β → Option (String × α))
    (l : List β) (dist : List (String × α)) (q : String × α)
    (h : q ∈ l.foldl (applyEntry g) dist) : q ∈ dist ∨ ∃ e ∈ l, g e = some q := by
  induction l generalizing dist with
  | nil => exact Or.inl h
  | cons e t ih =>
    rw [List.foldl_cons] at h
    rcases ih (applyEntry g dist e) h with h₁ | h₁
    · unfold applyEntry at h₁
      cases hg : g e with
      | none => rw [hg] at h₁; exact Or.inl h₁
      | some kv =>
        rw [hg] at h₁
        rcases mem_setKey dist kv.1 kv.2 q h₁ with h₂ | h₂
        · exact Or.inr ⟨e, List.mem_cons_self _ _, by rw [hg, h₂]⟩
        · exact Or.inl h₂
    · obtain ⟨x, hx, hgx⟩ := h₁
      exact Or.inr ⟨x, List.mem_cons_of_mem _ hx, hgx⟩

/-! ### Bridging lemmas for Flatten and buildMetadataIndex -/

theorem goSplitN3_of_three_segments (s : String) (a b c : String)
    (h : pathSegments s = [a, b, c]) : goSplitN3 s = [a, b, c] := by
  unfold goSplitN3
  rw [h]
  rfl

theorem length_eq_three_iff {α : Type} (l : List α) :
    l.length = 3 ↔ ∃ a b c, l = [a, b, c] := by
  constructor
  · intro h
    match l, h with
    | [a, b, c], _ => exact ⟨a, b, c, rfl⟩
  · rintro ⟨a, b, c, rfl⟩
    rfl

theorem flattenStep_eq_applyEntry (dist : Dir) (e : String × Bytes) :
    flattenStep dist e = applyEntry flatKV dist e := by
  unfold flattenStep applyEntry flatKV
  rcases goSplitN3 e.1 with _ | ⟨a, _ | ⟨b, _ | ⟨c, _ | ⟨d, t⟩⟩⟩⟩ <;> rfl

theorem Flatten_eq_foldl (build : Dir) :
    Flatten build = (glob3 build).foldl (applyEntry flatKV) [] := by
  unfold Flatten
  exact List.foldl_ext _ _ _ (fun dist e _ => flattenStep_eq_applyEntry dist e)

theorem mem_glob3 (build : Dir) (e : String × Bytes) :
    e ∈ glob3 build ↔ e ∈ build ∧ (pathSegments e.1).length = 3 := by
  unfold glob3
  rw [List.mem_filter]
  simp

theorem buildMetadataIndex_eq_foldl (metadata : List FilePathMetadata) :
    buildMetadataIndex metadata = metadata.foldl (applyEntry mdKV) [] := by
  unfold buildMetadataIndex
  exact List.foldl_ext _ _ _ (fun idx m _ => rfl)

/-- The flatKV of an entry whose path has exactly three segments. -/
theorem flatKV_of_three_segments (p : String) (bs : Bytes) (os arch fn : String)
    (h : pathSegments p = [os, arch, fn]) :
    flatKV (p, bs) = some (flattenedNewName os arch fn, bs) := by
  unfold flatKV
  rw [goSplitN3_of_three_segments p os arch fn h]

/-! ### The code-side key normalization agrees with the spec-side one -/

theorem goTrimLeading_dotSlash_data (d : List Char) :
    goTrimLeading ⟨d⟩ "./" = ⟨stripOnceDotSlash d⟩ := by
  show (if (['.', '/'] : List Char).isPrefixOf d then String.mk (d.drop 2) else ⟨d⟩)
    = ⟨stripOnceDotSlash d⟩
  unfold stripOnceDotSlash
  rcases d with _ | ⟨c₁, _ | ⟨c₂, r⟩⟩
  · rfl
  · simp [List.isPrefixOf]
  · by_cases hc₁ : c₁ = '.'
    · by_cases hc₂ : c₂ = '/'
      · subst hc₁; subst hc₂; simp [List.isPrefixOf]
      · have hc₂x : ¬ ('/' = c₂) := fun h => hc₂ h.symm
        simp [List.isPrefixOf, hc₁, hc₂, hc₂x]
    · have hc₁x : ¬ ('.' = c₁) := fun h => hc₁ h.symm
      simp [List.isPrefixOf, hc₁, hc₁x]

theorem goTrimLeading_slash_data (d : List Char) :
    goTrimLeading ⟨d⟩ "/" = ⟨stripOnceSlash d⟩ := by
  show (if (['/'] : List Char).isPrefixOf d then String.mk (d.drop 1) else ⟨d⟩)
    = ⟨stripOnceSlash d⟩
  unfold stripOnceSlash
  rcases d with _ | ⟨c₁, r⟩
  · rfl
  · by_cases hc₁ : c₁ = '/'
    · subst hc₁; simp [List.isPrefixOf]
    · have hc₁x : ¬ ('/' = c₁) := fun h => hc₁ h.symm
      simp [List.isPrefixOf, hc₁, hc₁x]

theorem normalizeKey_eq_spec (p : String) : normalizeKey p = specNormalizeKey p := by
  obtain ⟨d⟩ := p
  unfold normalizeKey specNormalizeKey
  rw [goTrimLeading_dotSlash_data d]
  exact goTrimLeading_slash_data (stripOnceDotSlash d)

/-- A three-segment entry that is the last one in the tree mapping to its
flattened name ends up in the Flatten output under that name with its own
bytes.  Shared backbone for the emission and collision properties. -/
theorem flatten_last_write (pre post : Dir) (p : String) (bs : Bytes)
    (os arch fn : String) (hseg : pathSegments p = [os, arch, fn])
    (hlast : ∀ e ∈ post, ∀ o a f, pathSegments e.1 = [o, a, f] →
      flattenedNewName o a f ≠ flattenedNewName os arch fn) :
    lookupKey (Flatten (pre ++ (p, bs) :: post)) (flattenedNewName os arch fn) = some bs := by
  rw [Flatten_eq_foldl]
  have hglob : glob3 (pre ++ (p, bs) :: post) = glob3 pre ++ (p, bs) :: glob3 post := by
    unfold glob3
    rw [List.filter_append, List.filter_cons]
    have hp : ((pathSegments (p, bs).1).length == 3) = true := by simp [hseg]
    rw [hp]
    simp
  rw [hglob]
  apply foldl_applyEntry_last_write flatKV (glob3 pre) (glob3 post) (p, bs) []
    (flattenedNewName os arch fn) bs
  · exact flatKV_of_three_segments p bs os arch fn hseg
  · intro e he kv hkv
    obtain ⟨hepost, helen⟩ := (mem_glob3 post e).mp he
    obtain ⟨a, b, c, habc⟩ := (length_eq_three_iff _).mp helen
    have hkve : flatKV e = some (flattenedNewName a b c, e.2) :=
      flatKV_of_three_segments e.1 e.2 a b c habc
    rw [hkve] at hkv
    have hkv₂ := Option.some.inj hkv
    subst hkv₂
    exact hlast e hepost a b c habc

/-- The count of entries under any key in a Flatten output is at most one. -/
theorem flatten_countKey_le_one (build : Dir) (key : String) :
    countKey (Flatten build) key ≤ 1 := by
  rw [Flatten_eq_foldl]
  exact foldl_applyEntry_countKey_le_one flatKV (glob3 build) []
    (fun k => by simp [countKey]) key

/-! ### Claim theorems -/

/-- Claim C1: for every input entry whose path has exactly three segments
os/arch/filename, Flatten emits an output entry whose name is
base-os-arch.sha256 when filename ends with the literal suffix ".sha256"
(base being filename with that suffix removed) and filename-os-arch
otherwise; the emitted entry carries the bytes of the input entry.  The
entry considered is the effective writer of its flattened name, that is, no
later entry maps to the same name (a later colliding entry would overwrite
it, see the collision property). -/
theorem flatten_renames_three_segment_entry
    (pre post : Dir) (p : String) (bs : Bytes) (os arch filename : String)
    (hseg : pathSegments p = [os, arch, filename])
    (hlast : ∀ e ∈ post, ∀ o a f, pathSegments e.1 = [o, a, f] →
      flattenedNewName o a f ≠ flattenedNewName os arch filename) :
    lookupKey (Flatten (pre ++ (p, bs) :: post))
      (if goHasSuffix filename ".sha256" then
        goTrimSuffix filename ".sha256" ++ "-" ++ os ++ "-" ++ arch ++ ".sha256"
      else filename ++ "-" ++ os ++ "-" ++ arch) = some bs := by
  show lookupKey (Flatten (pre ++ (p, bs) :: post))
    (flattenedNewName os arch filename) = some bs
  exact flatten_last_write pre post p bs os arch filename hseg hlast

/-- Witness for C1 at the two unit examples of the specification: a plain
artifact and a checksum file, each alone in a darwin/arm64 tree. -/
theorem flatten_renames_three_segment_entry_witness :
    lookupKey (Flatten [("darwin/arm64/tapes", [1, 2])]) "tapes-darwin-arm64" = some [1, 2] ∧
    lookupKey (Flatten [("darwin/arm64/tapes.sha256", [3])])
      "tapes-darwin-arm64.sha256" = some [3] := by
  constructor
  · exact flatten_renames_three_segment_entry [] [] "darwin/arm64/tapes" [1, 2]
      "darwin" "arm64" "tapes" (by decide) (by simp)
  · exact flatten_renames_three_segment_entry [] [] "darwin/arm64/tapes.sha256" [3]
      "darwin" "arm64" "tapes.sha256" (by decide) (by simp)

/-- Claim C2: Flatten produces output entries only from input paths with
exactly three segments (the output is unchanged when the input is restricted
to those paths), every other path is excluded without an error, and the
output entry count is at most the count of three-segment input paths. -/
theorem flatten_excludes_non_three_segment_paths (tree : Dir) :
    Flatten tree = Flatten (tree.filter fun e => (pathSegments e.1).length == 3) ∧
    (Flatten tree).length ≤ (tree.filter fun e => (pathSegments e.1).length == 3).length := by
  constructor
  · have hglob : glob3 (tree.filter fun e => (pathSegments e.1).length == 3) = glob3 tree := by
      unfold glob3
      rw [List.filter_filter]
      simp
    unfold Flatten
    rw [hglob]
  · rw [Flatten_eq_foldl]
    have h₂ := foldl_applyEntry_length flatKV (glob3 tree) []
    simp only [List.length_nil, Nat.zero_add] at h₂
    exact h₂

/-- Claim C3: when two entries of the input tree map to the same flattened
name, the output holds exactly one entry under that name, and it carries the
bytes of the last such entry in input order. -/
theorem flatten_collision_last_write_wins
    (pre post : Dir) (p q : String) (bs cs : Bytes)
    (os arch fn os₂ arch₂ fn₂ : String)
    (hq : (q, cs) ∈ pre)
    (hqseg : pathSegments q = [os₂, arch₂, fn₂])
    (hcollide : flattenedNewName os₂ arch₂ fn₂ = flattenedNewName os arch fn)
    (hpseg : pathSegments p = [os, arch, fn])
    (hlast : ∀ e ∈ post, ∀ o a f, pathSegments e.1 = [o, a, f] →
      flattenedNewName o a f ≠ flattenedNewName os arch fn) :
    lookupKey (Flatten (pre ++ (p, bs) :: post)) (flattenedNewName os arch fn) = some bs ∧
    countKey (Flatten (pre ++ (p, bs) :: post)) (flattenedNewName os arch fn) = 1 := by
  have hlookup := flatten_last_write pre post p bs os arch fn hpseg hlast
  refine ⟨hlookup, ?_⟩
  have hle := flatten_countKey_le_one (pre ++ (p, bs) :: post) (flattenedNewName os arch fn)
  have hge := lookupKey_some_countKey_pos _ _ _ hlookup
  omega

/-- Witness for C3 at the duplicate-input example of the specification. -/
theorem flatten_collision_last_write_wins_witness :
    lookupKey (Flatten [("linux/amd64/x", [1]), ("linux/amd64/x", [2])])
      "x-linux-amd64" = some [2] ∧
    countKey (Flatten [("linux/amd64/x", [1]), ("linux/amd64/x", [2])])
      "x-linux-amd64" = 1 := by
  exact flatten_collision_last_write_wins [("linux/amd64/x", [1])] []
    "linux/amd64/x" "linux/amd64/x" [2] [1] "linux" "amd64" "x" "linux" "amd64" "x"
    (by simp) (by decide) rfl (by decide) (by simp)

/-- Claim C8: applying Flatten to an already flat tree, all of whose paths
have a single segment, yields the empty directory and no error. -/
theorem flatten_of_flat_tree_is_empty (tree : Dir)
    (h : ∀ e ∈ tree, (pathSegments e.1).length = 1) : Flatten tree = [] := by
  have hglob : glob3 tree = [] := by
    refine List.filter_eq_nil_iff.mpr ?_
    intro e he
    simp [h e he]
  unfold Flatten
  rw [hglob]
  rfl

/-- Witness for C8 on a two-file flat tree. -/
theorem flatten_of_flat_tree_is_empty_witness :
    Flatten [("tapes-darwin-arm64", [7]), ("tapes-darwin-arm64.sha256", [8])] = [] :=
  flatten_of_flat_tree_is_empty _ (by decide)

/-- Counterexample to claim C4 as stated: stripping is done once per marker,
so the input path "//bin/app" is indexed under the key "/bin/app", which
still begins with "/".  The claim that the resulting key never has a leading
"./" or "/" is therefore false on this input. -/
theorem metadata_key_keeps_leading_slash_counterexample :
    buildMetadataIndex [⟨"//bin/app", ⟨"", ""⟩⟩] = [("/bin/app", ⟨"", ""⟩)] ∧
    goStartsWith "/bin/app" "/" = true := by
  refine ⟨?_, by decide⟩
  decide

/-- Claim C4 as amended: buildMetadataIndex normalizes each path to a
PathKey by stripping at most one leading "./" and then at most one leading
"/" (one marker of each kind, not repeated); in particular both "./bin/app"
and "/bin/app" normalize to "bin/app".  The single-entry index is exactly
the spec-side normalization paired with the metadata. -/
theorem buildMetadataIndex_strips_one_leading_marker_each
    (p : String) (meta : FileMetadata) :
    buildMetadataIndex [⟨p, meta⟩] = [(specNormalizeKey p, meta)] ∧
    normalizeKey "./bin/app" = "bin/app" ∧ normalizeKey "/bin/app" = "bin/app" := by
  refine ⟨?_, by decide, by decide⟩
  show setKey [] (normalizeKey p) meta = [(specNormalizeKey p, meta)]
  rw [normalizeKey_eq_spec]
  rfl

/-- Claim C5: buildMetadataIndex maps each distinct PathKey to a single
entry, and when several input entries normalize to the same PathKey, the
metadata stored is that of the last such entry in input order. -/
theorem buildMetadataIndex_last_write_wins
    (pre post : List FilePathMetadata) (m : FilePathMetadata)
    (hlast : ∀ m₂ ∈ post, normalizeKey m₂.Path ≠ normalizeKey m.Path) :
    lookupKey (buildMetadataIndex (pre ++ m :: post)) (normalizeKey m.Path) = some m.Meta ∧
    countKey (buildMetadataIndex (pre ++ m :: post)) (normalizeKey m.Path) = 1 := by
  have hlookup : lookupKey (buildMetadataIndex (pre ++ m :: post))
      (normalizeKey m.Path) = some m.Meta := by
    rw [buildMetadataIndex_eq_foldl]
    apply foldl_applyEntry_last_write mdKV pre post m [] (normalizeKey m.Path) m.Meta rfl
    intro e he kv hkv
    have hkv₂ : (normalizeKey e.Path, e.Meta) = kv := Option.some.inj hkv
    subst hkv₂
    exact hlast e he
  refine ⟨hlookup, ?_⟩
  have hle : countKey (buildMetadataIndex (pre ++ m :: post)) (normalizeKey m.Path) ≤ 1 := by
    rw [buildMetadataIndex_eq_foldl]
    exact foldl_applyEntry_countKey_le_one mdKV _ [] (fun k => by simp [countKey]) _
  have hge := lookupKey_some_countKey_pos _ _ _ hlookup
  omega

/-- Witness for C5 at the duplicate-key example of the specification:
"./bin/app" and "/bin/app" normalize to the same PathKey and the second
metadata wins. -/
theorem buildMetadataIndex_last_write_wins_witness :
    lookupKey (buildMetadataIndex
        [⟨"./bin/app", ⟨"sumA", "typeA"⟩⟩, ⟨"/bin/app", ⟨"sumB", "typeB"⟩⟩])
      (normalizeKey "/bin/app") = some ⟨"sumB", "typeB"⟩ ∧
    countKey (buildMetadataIndex
        [⟨"./bin/app", ⟨"sumA", "typeA"⟩⟩, ⟨"/bin/app", ⟨"sumB", "typeB"⟩⟩])
      (normalizeKey "/bin/app") = 1 :=
  buildMetadataIndex_last_write_wins [⟨"./bin/app", ⟨"sumA", "typeA"⟩⟩] []
    ⟨"/bin/app", ⟨"sumB", "typeB"⟩⟩ (by simp)

/-- Claim C6: with an empty metadata list the upload emits exactly one bulk
sync of the whole tree; with a non-empty metadata list it emits one targeted
copy per listed file, carrying the content-type header exactly when the
indexed ContentType is non-empty and the checksum headers exactly when the
indexed ChecksumSHA256 is non-empty, and a plain copy for a file absent from
the index. -/
theorem upload_decision_policy (ep dest : String) (files : List String)
    (metadata : List FilePathMetadata) :
    (metadata = [] → uploadDecisions ep dest files metadata = [bulkSyncCmd ep dest]) ∧
    (metadata ≠ [] → uploadDecisions ep dest files metadata =
      files.map (fun entry =>
        match lookupKey (buildMetadataIndex metadata) entry with
        | some m =>
          (["aws", "s3", "cp", entry, dest ++ "/" ++ entry, "--endpoint-url", ep]
            ++ (if m.ContentType ≠ "" then ["--content-type", m.ContentType] else []))
            ++ (if m.ChecksumSHA256 ≠ "" then
              ["--checksum-algorithm", "SHA256", "--checksum-sha256", m.ChecksumSHA256]
            else [])
        | none => ["aws", "s3", "cp", entry, dest ++ "/" ++ entry, "--endpoint-url", ep])) := by
  constructor
  · intro h
    subst h
    rfl
  · intro h
    unfold uploadDecisions
    rw [if_neg (fun hl => h (List.length_eq_zero.mp hl))]
    refine congrArg (List.map · files) (funext fun entry => ?_)
    show cpCmd ep dest (buildMetadataIndex metadata) entry = _
    unfold cpCmd
    cases hm : lookupKey (buildMetadataIndex metadata) entry with
    | none => rfl
    | some m =>
      by_cases h₁ : m.ContentType = "" <;> by_cases h₂ : m.ChecksumSHA256 = "" <;>
        simp [h₁, h₂]

/-- Witness for C6 at the decision-policy example of the specification:
two files, one with metadata carrying only a content type. -/
theorem upload_decision_policy_witness :
    uploadDecisions "https://endpoint" "s3://bucket/v1" ["a", "b"] [] =
      [["aws", "s3", "sync", ".", "s3://bucket/v1", "--endpoint-url", "https://endpoint"]] ∧
    uploadDecisions "https://endpoint" "s3://bucket/v1" ["a", "b"]
        [⟨"a", ⟨"", "text/plain"⟩⟩] =
      [["aws", "s3", "cp", "a", "s3://bucket/v1/a", "--endpoint-url", "https://endpoint",
        "--content-type", "text/plain"],
       ["aws", "s3", "cp", "b", "s3://bucket/v1/b", "--endpoint-url", "https://endpoint"]] := by
  constructor
  · exact (upload_decision_policy "https://endpoint" "s3://bucket/v1" ["a", "b"] []).1 rfl
  · have h := (upload_decision_policy "https://endpoint" "s3://bucket/v1" ["a", "b"]
      [⟨"a", ⟨"", "text/plain"⟩⟩]).2 (by decide)
    rw [h]
    rfl

/-- Claim C7: calling Upload on a Ghrelease whose Tag was never set returns
the configuration error naming the missing tag; nothing else is consulted,
in particular the result is independent of the assets directory, so no
listing or external upload is attempted. -/
theorem upload_without_tag_is_config_error (m : Ghrelease) (assets₂ : Dir)
    (h : m.Tag = "") :
    m.Upload = Except.error "no tag set: call WithTag before Upload" ∧
    ({ m with Assets := assets₂ } : Ghrelease).Upload = m.Upload := by
  constructor
  · unfold Ghrelease.Upload
    rw [if_pos h]
  · unfold Ghrelease.Upload
    simp only [h]
    rfl

/-- Witness for C7: a freshly constructed Ghrelease (Tag still the zero
value) rejects Upload with the configuration error. -/
theorem upload_without_tag_is_config_error_witness :
    (Ghrelease.New ⟨"token"⟩ "papercomputeco/tapes"
      [("darwin/arm64/tapes", [1])]).Upload
      = Except.error "no tag set: call WithTag before Upload" :=
  (upload_without_tag_is_config_error
    (Ghrelease.New ⟨"token"⟩ "papercomputeco/tapes" [("darwin/arm64/tapes", [1])])
    [] rfl).1

/-- Claim C9: UploadLatest attempts the version prefix first; when that
attempt fails the wrapped error is returned at once and the latest prefix is
never attempted (the attempt trace stops at the version prefix). -/
theorem uploadLatest_version_first_and_fail_fast
    (f g : String → Except String Unit) (version e : String)
    (h : f version = Except.error e) :
    (UploadLatest g version).1.head? = some version ∧
    UploadLatest f version =
      ([version], Except.error ("could not upload versioned release artifacts: " ++ e)) := by
  constructor
  · unfold UploadLatest
    cases g version with
    | error e₂ => rfl
    | ok u =>
      cases g latest with
      | error e₂ => rfl
      | ok u => rfl
  · unfold UploadLatest
    rw [h]

/-- Witness for C9 with an oracle that fails on every prefix: only the
version prefix is attempted and the wrapped error is returned. -/
theorem uploadLatest_version_first_and_fail_fast_witness :
    (UploadLatest (fun _ => Except.ok ()) "v1.2.3").1.head? = some "v1.2.3" ∧
    UploadLatest (fun _ => Except.error "transfer failed") "v1.2.3" =
      (["v1.2.3"],
        Except.error ("could not upload versioned release artifacts: " ++ "transfer failed")) :=
  uploadLatest_version_first_and_fail_fast
    (fun _ => Except.error "transfer failed") (fun _ => Except.ok ())
    "v1.2.3" "transfer failed" rfl

/-- Claim C10: WithFlatten sets only the DoFlatten field and WithTag sets
only the Tag field; each leaves Token, Repo, Assets and the other of the two
fields unchanged, for every prior state of the receiver. -/
theorem withFlatten_withTag_frame (m : Ghrelease) (tag : String) :
    (m.WithFlatten.Token = m.Token ∧ m.WithFlatten.Repo = m.Repo ∧
      m.WithFlatten.Assets = m.Assets ∧ m.WithFlatten.Tag = m.Tag ∧
      m.WithFlatten.DoFlatten = true) ∧
    ((m.WithTag tag).Token = m.Token ∧ (m.WithTag tag).Repo = m.Repo ∧
      (m.WithTag tag).Assets = m.Assets ∧ (m.WithTag tag).DoFlatten = m.DoFlatten ∧
      (m.WithTag tag).Tag = tag) :=
  ⟨⟨rfl, rfl, rfl, rfl, rfl⟩, ⟨rfl, rfl, rfl, rfl, rfl⟩⟩

end Daggerverse
